import Mathlib

/-!
# Verification of the FIR filter design / quantization pipeline

Shallow embedding of the numerical core of the `fir-filter-adder-tree`
repository:

* `src/src/filter_design.py` — FIR bandpass design, quantization to
  Q1.`frac_bits` (`np.round`, i.e. round-half-to-even, then `np.clip` to the
  int16 range), dequantization, and hex/decimal coefficient export.
* `src/debug_filter.py` — hex coefficient import (parse line as unsigned hex,
  reinterpret as two's complement by subtracting 65536 when above 32767).
* `src/tb/cocotb/test_fir.py` — the cocotb harness: `float_to_q15`,
  `q15_to_float` and the `run_fir` feed/drain collection loops.

Real-valued quantities of the Python code are modelled over `ℚ` (the
quantizer, exporter and harness conversions are exact rational/integer
computations); the externally supplied windowed-sinc design kernel
(`scipy.signal.firwin`, which is not part of the repository sources) is
modelled from the spec over `ℝ`.
-/

/-- Round-half-to-even (banker's rounding), the rounding rule of `np.round`
used by `filter_design.py` line 38 and `test_fir.py` line 16.  Stated over any
`LinearOrderedField` with a floor so it can be used both for the exact `ℚ`
model of the quantizer and for the `ℝ` model of the design kernel. -/
def roundHalfEven {α : Type} [LinearOrderedField α] [FloorRing α] (x : α) : ℤ :=
  if x - (⌊x⌋ : α) < 1/2 then ⌊x⌋
  else if (1 : α)/2 < x - (⌊x⌋ : α) then ⌊x⌋ + 1
  else if ⌊x⌋ % 2 = 0 then ⌊x⌋ else ⌊x⌋ + 1

/-- `np.clip(v, lo, hi)` on integers (`filter_design.py` line 41). -/
def clipInt (lo hi v : ℤ) : ℤ := max lo (min v hi)

/-- The quantization step of `design_bandpass_fir_filter`
(`filter_design.py` lines 37–41): `scale = 1 << frac_bits`,
`b_q = np.round(b_float * scale)` then `np.clip(b_q, -32768, 32767)`.
The `int32` intermediate is modelled as exact integer arithmetic. -/
def quantizeQ (fracBits : ℕ) (x : ℚ) : ℤ :=
  clipInt (-32768) 32767 (roundHalfEven (x * 2 ^ fracBits))

/-- Elementwise quantization of a float coefficient array. -/
def quantizeList (fracBits : ℕ) (xs : List ℚ) : List ℤ :=
  xs.map (quantizeQ fracBits)

/-- Dequantization (`filter_design.py` line 46, `test_fir.py` line 20):
exact division by `scale = 2 ^ frac_bits`. -/
def dequantizeQ (fracBits : ℕ) (q : ℤ) : ℚ := (q : ℚ) / 2 ^ fracBits

section RoundLemmas

variable {α : Type} [LinearOrderedField α] [FloorRing α]

theorem roundHalfEven_eq_floor_or_succ (x : α) :
    roundHalfEven x = ⌊x⌋ ∨ roundHalfEven x = ⌊x⌋ + 1 := by
  unfold roundHalfEven
  split
  · exact Or.inl rfl
  · split
    · exact Or.inr rfl
    · split
      · exact Or.inl rfl
      · exact Or.inr rfl

theorem abs_roundHalfEven_sub_le (x : α) :
    |(roundHalfEven x : α) - x| ≤ 1/2 := by
  have hfl : (⌊x⌋ : α) ≤ x := Int.floor_le x
  have hfu : x < (⌊x⌋ : α) + 1 := Int.lt_floor_add_one x
  unfold roundHalfEven
  split
  · rename_i h
    rw [abs_sub_comm, abs_of_nonneg (by linarith)]
    linarith
  · rename_i h
    push_neg at h
    split
    · rename_i h2
      push_cast
      rw [abs_of_nonneg (by linarith)]
      linarith
    · rename_i h2
      push_neg at h2
      have heq : x - (⌊x⌋ : α) = 1/2 := le_antisymm h2 h
      split
      · rw [abs_sub_comm, abs_of_nonneg (by linarith)]
        linarith
      · push_cast
        rw [abs_of_nonneg (by linarith)]
        linarith

theorem roundHalfEven_le_of_lt {x : α} {n : ℤ} (h : x < n) :
    roundHalfEven x ≤ n := by
  have hfl : ⌊x⌋ < n := Int.floor_lt.mpr h
  rcases roundHalfEven_eq_floor_or_succ x with h1 | h1 <;> omega

theorem le_roundHalfEven_of_lt {x : α} {n : ℤ} (h : (n : α) < x) :
    n ≤ roundHalfEven x := by
  have hfl : n ≤ ⌊x⌋ := Int.le_floor.mpr (le_of_lt h)
  rcases roundHalfEven_eq_floor_or_succ x with h1 | h1 <;> omega

theorem roundHalfEven_even_of_tie {x : α} (h : x - (⌊x⌋ : α) = 1/2) :
    roundHalfEven x % 2 = 0 := by
  unfold roundHalfEven
  split
  · rename_i h1; rw [h] at h1; norm_num at h1
  · split
    · rename_i _ h2; rw [h] at h2; norm_num at h2
    · split
      · assumption
      · omega

end RoundLemmas

theorem clipInt_eq_self {lo hi v : ℤ} (h1 : lo ≤ v) (h2 : v ≤ hi) :
    clipInt lo hi v = v := by
  unfold clipInt; omega

/-- **C1.** For every `x` whose scaled magnitude is within the representable
range, dequantizing the quantization of `x` at `fracBits` fractional bits
differs from `x` by at most `1/(2*scale)` where `scale = 2^fracBits`:
`|dequantize(quantize(x, fracBits), fracBits) - x| <= 1/(2*scale)`. -/
theorem quantize_dequantize_roundtrip (x : ℚ) (f : ℕ)
    (h : |x * 2 ^ f| ≤ 32767) :
    |dequantizeQ f (quantizeQ f x) - x| ≤ 1 / (2 * 2 ^ f) := by
  set y : ℚ := x * 2 ^ f with hy
  have habs := abs_le.mp (abs_roundHalfEven_sub_le y)
  have hyb := abs_le.mp h
  have h2f : (0 : ℚ) < 2 ^ f := by positivity
  set r : ℤ := roundHalfEven y with hr
  have hr1 : r ≤ 32767 := by
    have hq : (r : ℚ) < 32768 := by linarith [habs.2, hyb.2]
    have hz : r < (32768 : ℤ) := by exact_mod_cast hq
    omega
  have hr2 : -32768 ≤ r := by
    have hq : (-32768 : ℚ) < (r : ℚ) := by linarith [habs.1, hyb.1]
    have hz : (-32768 : ℤ) < r := by exact_mod_cast hq
    omega
  have hclip : quantizeQ f x = r := by
    rw [quantizeQ, ← hy, ← hr, clipInt_eq_self hr2 hr1]
  rw [hclip, dequantizeQ]
  have hdd : (r : ℚ) / 2 ^ f - x = ((r : ℚ) - y) / 2 ^ f := by
    rw [hy, sub_div, mul_div_cancel_right₀ _ (ne_of_gt h2f)]
  rw [hdd, abs_div, abs_of_pos h2f]
  rw [div_le_div_iff h2f (by positivity)]
  have habs2 : |(r : ℚ) - y| ≤ 1 / 2 := abs_roundHalfEven_sub_le y
  calc |(r : ℚ) - y| * (2 * 2 ^ f) ≤ (1 / 2) * (2 * 2 ^ f) := by
        apply mul_le_mul_of_nonneg_right habs2; positivity
    _ = 1 * 2 ^ f := by ring

theorem quantize_dequantize_roundtrip_witness :
    |dequantizeQ 3 (quantizeQ 3 (1/4)) - 1/4| ≤ 1 / (2 * 2 ^ 3) :=
  quantize_dequantize_roundtrip (1/4) 3 (by norm_num)

/-- **C3.** A value whose scaled magnitude exceeds `2^15` is quantized to the
nearest representable boundary (`32767` or `-32768`), never wrapped (the
hypotheses bounding the scaled value by `2^31 - 1` reflect the `int32`
intermediate of `filter_design.py` line 38, within which the arithmetic is
exact); and quantizing `+0.999970` at `fracBits = 15` yields `32767`. -/
theorem quantize_saturates :
    (∀ (x : ℚ) (f : ℕ), 32768 < x * 2 ^ f → x * 2 ^ f ≤ 2 ^ 31 - 1 →
      quantizeQ f x = 32767) ∧
    (∀ (x : ℚ) (f : ℕ), x * 2 ^ f < -32768 → -(2 ^ 31 - 1) ≤ x * 2 ^ f →
      quantizeQ f x = -32768) ∧
    quantizeQ 15 (999970/1000000) = 32767 := by
  refine ⟨fun x f hbig _ => ?_, fun x f hbig _ => ?_, ?_⟩
  · have hge : (32768 : ℤ) ≤ roundHalfEven (x * 2 ^ f) :=
      le_roundHalfEven_of_lt (by exact_mod_cast hbig)
    rw [quantizeQ, clipInt]
    omega
  · have hle : roundHalfEven (x * 2 ^ f) ≤ -32768 :=
      roundHalfEven_le_of_lt (by exact_mod_cast hbig)
    rw [quantizeQ, clipInt]
    omega
  · norm_num [quantizeQ, clipInt, roundHalfEven]

theorem quantize_saturates_witness :
    quantizeQ 15 2 = 32767 :=
  quantize_saturates.1 2 15 (by norm_num) (by norm_num)

/-- **C4.** Quantization rounds each scaled value to the nearest integer
(error at most `1/2`), ties resolved to the even integer; with `fracBits = 3`
(`scale = 8`) the float coefficients `[0.1, 0.2, 0.4, 0.2, 0.1]` quantize
exactly to `[1, 2, 3, 2, 1]`. -/
theorem quantize_round_half_to_even :
    (∀ x : ℚ, |(roundHalfEven x : ℚ) - x| ≤ 1/2) ∧
    (∀ x : ℚ, x - (⌊x⌋ : ℚ) = 1/2 → roundHalfEven x % 2 = 0) ∧
    quantizeList 3 [1/10, 2/10, 4/10, 2/10, 1/10] = [1, 2, 3, 2, 1] := by
  refine ⟨fun x => abs_roundHalfEven_sub_le x,
          fun x h => roundHalfEven_even_of_tie h, ?_⟩
  norm_num [quantizeList, quantizeQ, clipInt, roundHalfEven]

theorem quantize_round_half_to_even_witness :
    roundHalfEven (3/2 : ℚ) % 2 = 0 :=
  quantize_round_half_to_even.2.1 (3/2) (by norm_num)

/-- Uppercase hexadecimal digit character for a nibble (`0`–`9`, `A`–`F`),
as produced by Python's `X` format code. -/
def hexChar (n : ℕ) : Char :=
  if n < 10 then Char.ofNat (48 + n) else Char.ofNat (55 + n)

/-- `np.uint16(c)`: two's-complement reinterpretation of an `int16`
coefficient as an unsigned 16-bit value (`filter_design.py` line 87). -/
def toUInt16 (c : ℤ) : ℕ := (c % 65536).toNat

/-- One line of `export_coeffs_hex` (`filter_design.py` line 87):
`f"{np.uint16(c):04X}"` — four uppercase hex digits, zero-padded,
most-significant nibble first. -/
def hexLine16 (c : ℤ) : String :=
  String.mk [hexChar (toUInt16 c / 4096 % 16), hexChar (toUInt16 c / 256 % 16),
             hexChar (toUInt16 c / 16 % 16), hexChar (toUInt16 c % 16)]

/-- `export_coeffs_hex` (`filter_design.py` lines 80–87): one line per
coefficient, written in coefficient index order.  The produced text is
modelled as the list of its lines. -/
def export_coeffs_hex (coeffs : List ℤ) : List String := coeffs.map hexLine16

/-- Value of one hex digit character, as accepted by Python's
`int(line, 16)` (`debug_filter.py` line 32). -/
def hexCharVal (ch : Char) : Option ℕ :=
  if 48 ≤ ch.toNat ∧ ch.toNat ≤ 57 then some (ch.toNat - 48)
  else if 65 ≤ ch.toNat ∧ ch.toNat ≤ 70 then some (ch.toNat - 55)
  else if 97 ≤ ch.toNat ∧ ch.toNat ≤ 102 then some (ch.toNat - 87)
  else none

/-- `int(line, 16)`: parse a nonempty string of hex digits as an unsigned
value, most-significant digit first (`debug_filter.py` line 32). -/
def parseHexNat (s : String) : Option ℕ :=
  if s.data.isEmpty then none
  else s.data.foldl
    (fun acc ch => acc.bind fun a => (hexCharVal ch).map fun d => 16 * a + d)
    (some 0)

/-- One line of the hex import of `analyze_filter` (`debug_filter.py` lines
32–35): parse the line as unsigned hex and reinterpret as two's-complement
(`if val > 32767: val -= 65536`). -/
def importHexLine (s : String) : Option ℤ :=
  (parseHexNat s).map fun v : ℕ =>
    if 32767 < v then (v : ℤ) - 65536 else (v : ℤ)

/-- The hex coefficient import of `analyze_filter` (`debug_filter.py` lines
27–35): every line parsed in order; a malformed line aborts the import. -/
def import_coeffs_hex (lines : List String) : Option (List ℤ) :=
  lines.mapM importHexLine

/-- A character that is an uppercase hexadecimal digit (`0`–`9`, `A`–`F`). -/
def isUpperHexDigit (ch : Char) : Prop :=
  (48 ≤ ch.toNat ∧ ch.toNat ≤ 57) ∨ (65 ≤ ch.toNat ∧ ch.toNat ≤ 70)

instance (ch : Char) : Decidable (isUpperHexDigit ch) := by
  unfold isUpperHexDigit; exact inferInstance

theorem hexCharVal_hexChar {n : ℕ} (h : n < 16) :
    hexCharVal (hexChar n) = some n := by
  interval_cases n <;> rfl

theorem isUpperHexDigit_hexChar {n : ℕ} (h : n < 16) :
    isUpperHexDigit (hexChar n) := by
  interval_cases n <;> decide

theorem toUInt16_lt (c : ℤ) : toUInt16 c < 65536 := by
  unfold toUInt16; omega

theorem parseHexNat_hexLine16 (c : ℤ) :
    parseHexNat (hexLine16 c) = some (toUInt16 c) := by
  have hv : toUInt16 c < 65536 := toUInt16_lt c
  have h3 : toUInt16 c / 4096 % 16 < 16 := Nat.mod_lt _ (by norm_num)
  have h2 : toUInt16 c / 256 % 16 < 16 := Nat.mod_lt _ (by norm_num)
  have h1 : toUInt16 c / 16 % 16 < 16 := Nat.mod_lt _ (by norm_num)
  have h0 : toUInt16 c % 16 < 16 := Nat.mod_lt _ (by norm_num)
  rw [parseHexNat, hexLine16]
  simp [hexCharVal_hexChar h3, hexCharVal_hexChar h2, hexCharVal_hexChar h1,
    hexCharVal_hexChar h0]
  have e1 : toUInt16 c / 256 / 16 = toUInt16 c / 4096 := by
    rw [Nat.div_div_eq_div_mul]
  have e2 : toUInt16 c / 16 / 16 = toUInt16 c / 256 := by
    rw [Nat.div_div_eq_div_mul]
  have e3 : toUInt16 c / 4096 / 16 = toUInt16 c / 65536 := by
    rw [Nat.div_div_eq_div_mul]
  have e4 : toUInt16 c / 65536 = 0 := Nat.div_eq_of_lt hv
  omega

theorem importHexLine_hexLine16 {c : ℤ} (h1 : -32768 ≤ c) (h2 : c ≤ 32767) :
    importHexLine (hexLine16 c) = some c := by
  rw [importHexLine, parseHexNat_hexLine16]
  unfold toUInt16
  simp only [Option.map_some']
  congr 1
  split <;> omega

/-- **C2.** For every coefficient array `c` whose elements all lie in
`[-2^15, 2^15 - 1]`, importing the hex text produced by exporting `c` (at the
code's word width of 16 bits) yields exactly `c`, elementwise:
`importHex(exportHex(c)) = c`. -/
theorem import_export_roundtrip (c : List ℤ)
    (h : ∀ v ∈ c, -32768 ≤ v ∧ v ≤ 32767) :
    import_coeffs_hex (export_coeffs_hex c) = some c := by
  induction c with
  | nil => rfl
  | cons a l ih =>
    have ha := h a (List.mem_cons_self a l)
    have hl : ∀ v ∈ l, -32768 ≤ v ∧ v ≤ 32767 := fun v hv =>
      h v (List.mem_cons_of_mem a hv)
    have ihl := ih hl
    rw [import_coeffs_hex, export_coeffs_hex] at ihl
    rw [export_coeffs_hex, List.map_cons, import_coeffs_hex, List.mapM_cons,
        importHexLine_hexLine16 ha.1 ha.2, ihl]
    rfl

theorem import_export_roundtrip_witness :
    import_coeffs_hex (export_coeffs_hex [1, -1, 32767, -32768, 0]) =
      some [1, -1, 32767, -32768, 0] :=
  import_export_roundtrip [1, -1, 32767, -32768, 0] (by
    intro v hv
    simp only [List.mem_cons, List.not_mem_nil, or_false] at hv
    rcases hv with h | h | h | h | h <;> subst h <;> exact ⟨by norm_num, by norm_num⟩)

theorem hexLine16_len (c : ℤ) : (hexLine16 c).length = 4 := rfl

theorem hexLine16_chars (c : ℤ) :
    ∀ ch ∈ (hexLine16 c).data, isUpperHexDigit ch := by
  intro ch hch
  have h3 : toUInt16 c / 4096 % 16 < 16 := Nat.mod_lt _ (by norm_num)
  have h2 : toUInt16 c / 256 % 16 < 16 := Nat.mod_lt _ (by norm_num)
  have h1 : toUInt16 c / 16 % 16 < 16 := Nat.mod_lt _ (by norm_num)
  have h0 : toUInt16 c % 16 < 16 := Nat.mod_lt _ (by norm_num)
  simp only [hexLine16, String.data, List.mem_cons, List.not_mem_nil,
    or_false] at hch
  rcases hch with h | h | h | h <;> subst h
  · exact isUpperHexDigit_hexChar h3
  · exact isUpperHexDigit_hexChar h2
  · exact isUpperHexDigit_hexChar h1
  · exact isUpperHexDigit_hexChar h0

/-- **C9.** `exportHex` renders each fixed coefficient as one line of exactly
`16/4 = 4` uppercase hexadecimal digits of its two's-complement bit pattern
(`parseHexNat line = c mod 2^16`, most-significant nibble first by
construction of `hexLine16`), zero-padded, with no prefix and no blank lines,
and the `i`-th line corresponds to the `i`-th coefficient. -/
theorem export_hex_line_format (coeffs : List ℤ) (i : ℕ)
    (h : i < coeffs.length) :
    (export_coeffs_hex coeffs).length = coeffs.length ∧
    (export_coeffs_hex coeffs).getD i "" = hexLine16 (coeffs.getD i 0) ∧
    ((export_coeffs_hex coeffs).getD i "").length = 4 ∧
    (export_coeffs_hex coeffs).getD i "" ≠ "" ∧
    (∀ ch ∈ ((export_coeffs_hex coeffs).getD i "").data, isUpperHexDigit ch) ∧
    parseHexNat ((export_coeffs_hex coeffs).getD i "") =
      some ((coeffs.getD i 0 % 65536).toNat) := by
  have hline : (export_coeffs_hex coeffs).getD i "" =
      hexLine16 (coeffs.getD i 0) := by
    rw [export_coeffs_hex,
        List.getD_eq_getElem _ _ (by simpa using h), List.getElem_map,
        List.getD_eq_getElem _ _ h]
  refine ⟨by rw [export_coeffs_hex, List.length_map], hline, ?_, ?_, ?_, ?_⟩
  · rw [hline]; rfl
  · rw [hline]
    intro hcon
    have : (hexLine16 (coeffs.getD i 0)).length = 0 := by rw [hcon]; rfl
    rw [hexLine16_len] at this
    norm_num at this
  · rw [hline]; exact hexLine16_chars _
  · rw [hline, parseHexNat_hexLine16]; rfl

theorem export_hex_line_format_witness :
    (export_coeffs_hex [-2]).getD 0 "" = hexLine16 (-2) ∧
    ((export_coeffs_hex [-2]).getD 0 "").length = 4 :=
  ⟨(export_hex_line_format [-2] 0 (by norm_num)).2.1,
   (export_hex_line_format [-2] 0 (by norm_num)).2.2.1⟩

/-- `astype(np.int16)`: wrap an integer into the 16-bit two's-complement
range (`test_fir.py` line 16). -/
def wrapInt16 (v : ℤ) : ℤ := (v + 32768) % 65536 - 32768

/-- `float_to_q15` (`test_fir.py` lines 14–16):
`np.clip(x, -0.999969, 0.999969)`, then `np.round(x * SCALE)` with
`SCALE = 1 << 15`, then `astype(np.int16)`. -/
def float_to_q15 (x : ℚ) : ℤ :=
  wrapInt16 (roundHalfEven
    (max (-(999969/1000000) : ℚ) (min x (999969/1000000)) * 32768))

/-- **C10.** For every input `x`, the harness's float-to-Q15 conversion yields
a sample in `[-32767, 32767]`; the most negative 16-bit word `-32768` is never
produced, because the input is clamped to `[-0.999969, 0.999969]` before
scaling and rounding. -/
theorem float_to_q15_range (x : ℚ) :
    -32767 ≤ float_to_q15 x ∧ float_to_q15 x ≤ 32767 := by
  rw [float_to_q15]
  set cl : ℚ := max (-(999969/1000000) : ℚ) (min x (999969/1000000)) with hcl
  have hlb : -(999969/1000000 : ℚ) ≤ cl := le_max_left _ _
  have hub : cl ≤ 999969/1000000 := max_le (by norm_num) (min_le_right _ _)
  have habs := abs_le.mp (abs_roundHalfEven_sub_le (cl * 32768))
  set r : ℤ := roundHalfEven (cl * 32768) with hrdef
  have hy1 : cl * 32768 ≤ 999969/1000000 * 32768 := by linarith
  have hy2 : -(999969/1000000) * 32768 ≤ cl * 32768 := by linarith
  have hr1 : r ≤ 32767 := by
    have hq : (r : ℚ) < 32768 := by linarith [habs.2]
    have hz : r < (32768 : ℤ) := by exact_mod_cast hq
    omega
  have hr2 : -32767 ≤ r := by
    have hq : (-32768 : ℚ) < (r : ℚ) := by linarith [habs.1]
    have hz : (-32768 : ℤ) < r := by exact_mod_cast hq
    omega
  rw [wrapInt16]
  constructor <;> omega

/-- The saturation count the spec's words attribute to the quantizer
("records a saturation count (values that were clamped)"): the number of
inputs whose rounded scaled value falls outside `[-32768, 32767]`.  This
definition follows the spec, not the source; the source records no such
count. -/
def satCountSpec (fracBits : ℕ) (xs : List ℚ) : ℕ :=
  (xs.filter fun x =>
    decide (roundHalfEven (x * 2 ^ fracBits) < -32768 ∨
            32767 < roundHalfEven (x * 2 ^ fracBits))).length

/-- The numeric metric actually derived from the quantized array and recorded
by the quantization step: the maximum coefficient (`filter_design.py`
line 54). -/
def quantRecordedMax (fracBits : ℕ) (xs : List ℚ) : Option ℤ :=
  (quantizeList fracBits xs).max?

/-- The other recorded metric: the minimum coefficient (`filter_design.py`
line 55). -/
def quantRecordedMin (fracBits : ℕ) (xs : List ℚ) : Option ℤ :=
  (quantizeList fracBits xs).min?

/-- **C7 (counterexample).** At the concrete input `[2.0]` with
`fracBits = 15`, exactly one value is clamped (the spec's saturation count
would be `1`), but the quantizer of the source records no such count: its
entire result is the quantized list `[32767]`, and the only numeric metrics
the code derives from it are the maximum and minimum coefficient (both
`32767`), neither of which equals the number of clamped values. -/
theorem quantize_no_satcount_recorded :
    satCountSpec 15 [2] = 1 ∧
    quantizeList 15 [2] = [32767] ∧
    quantRecordedMax 15 [2] = some 32767 ∧
    quantRecordedMin 15 [2] = some 32767 ∧
    quantRecordedMax 15 [2] ≠ some 1 ∧
    quantRecordedMin 15 [2] ≠ some 1 := by
  have hq : quantizeList 15 [2] = [32767] := by
    norm_num [quantizeList, quantizeQ, clipInt, roundHalfEven]
  refine ⟨?_, hq, ?_, ?_, ?_, ?_⟩
  · norm_num [satCountSpec, roundHalfEven]
  · rw [quantRecordedMax, hq]; rfl
  · rw [quantRecordedMin, hq]; rfl
  · rw [quantRecordedMax, hq]; simp
  · rw [quantRecordedMin, hq]; simp

/-- **C7 (amended).** The quantizer clamps every out-of-range value to the
representable range and never raises an error by itself: it is total,
producing one in-range output per input. -/
theorem quantize_clamps_without_error (fracBits : ℕ) (xs : List ℚ) :
    (quantizeList fracBits xs).length = xs.length ∧
    ∀ v ∈ quantizeList fracBits xs, -32768 ≤ v ∧ v ≤ 32767 := by
  refine ⟨List.length_map xs _, ?_⟩
  intro v hv
  rw [quantizeList, List.mem_map] at hv
  obtain ⟨x, _, hx⟩ := hv
  rw [← hx, quantizeQ, clipInt]
  constructor <;> omega

theorem quantize_clamps_without_error_witness :
    -32768 ≤ (32767 : ℤ) ∧ (32767 : ℤ) ≤ 32767 :=
  (quantize_clamps_without_error 15 [2]).2 32767 (by
    have hq : quantizeList 15 [2] = [32767] := by
      norm_num [quantizeList, quantizeQ, clipInt, roundHalfEven]
    rw [hq]
    exact List.mem_singleton_self 32767)

/-- The output-collection loop of `run_fir` (`test_fir.py` lines 84–102): on
each clock cycle `c` of `cycles`, if the DUT asserts `m_axis_fir_tvalid`
(`vout c`), the output word `dout c` is appended to the accumulator.  The FIR
DUT itself is external Verilog, abstracted as its per-cycle output streams
`vout`/`dout`. -/
def collectLoop (vout : ℕ → Bool) (dout : ℕ → ℤ) : List ℤ → List ℕ → List ℤ
  | acc, [] => acc
  | acc, c :: cs => collectLoop vout dout (if vout c then acc ++ [dout c] else acc) cs

/-- `s_axis_fir_tvalid` as driven by `run_fir`: asserted on the `N` feed
cycles (`test_fir.py` line 86), deasserted from the first drain cycle on
(line 95). -/
def drivenTValid (N c : ℕ) : Bool := decide (c < N)

/-- The drain phase of `run_fir` (`test_fir.py` lines 97–101): 300 further
cycles after the `N` feed cycles, with no new input. -/
def drainCycles (N : ℕ) : List ℕ := List.range' N 300

/-- `run_fir` output collection over a run with `N` input samples: the feed
loop over cycles `0..N-1` followed by the drain loop, both appending into the
same `fir_out` list. -/
def runFir (vout : ℕ → Bool) (dout : ℕ → ℤ) (N : ℕ) : List ℤ :=
  collectLoop vout dout (collectLoop vout dout [] (List.range N)) (drainCycles N)

/-- The tap count of the repository configuration
(`filter_design.py` line 114). -/
def numtapsConfig : ℕ := 121

theorem collectLoop_eq_filter (vout : ℕ → Bool) (dout : ℕ → ℤ)
    (cs : List ℕ) :
    ∀ acc : List ℤ,
      collectLoop vout dout acc cs = acc ++ (cs.filter vout).map dout := by
  induction cs with
  | nil => intro acc; simp [collectLoop]
  | cons c cs ih =>
    intro acc
    rw [collectLoop, ih]
    by_cases h : vout c
    · simp [List.filter_cons, h]
    · simp [List.filter_cons, h]

/-- **C8.** After the last of the `N` input samples is consumed, `run_fir`
deasserts input validity on every one of its 300 drain cycles (no new input);
the drain lasts at least `max(numtaps, L)` cycles for the design's
`numtaps = 121` and any fixed pipeline latency `L ≤ 300`; and the outputs the
DUT flags valid during the drain are appended, in cycle order, after the
outputs collected while feeding. -/
theorem run_fir_drain (vout : ℕ → Bool) (dout : ℕ → ℤ) (N : ℕ) :
    (∀ c ∈ drainCycles N, drivenTValid N c = false) ∧
    (∀ L : ℕ, L ≤ 300 → max numtapsConfig L ≤ (drainCycles N).length) ∧
    runFir vout dout N =
      ((List.range N).filter vout).map dout ++
        ((drainCycles N).filter vout).map dout := by
  refine ⟨?_, ?_, ?_⟩
  · intro c hc
    rw [drainCycles, List.mem_range'_1] at hc
    rw [drivenTValid, decide_eq_false_iff_not]
    omega
  · intro L hL
    rw [drainCycles, List.length_range', numtapsConfig]
    omega
  · rw [runFir, collectLoop_eq_filter, collectLoop_eq_filter]
    simp

theorem run_fir_drain_witness :
    drivenTValid 1 5 = false :=
  (run_fir_drain (fun _ => true) (fun _ => 0) 1).1 5 (by
    rw [drainCycles, List.mem_range'_1]
    omega)

/-- Normalized sinc, `sin(π x)/(π x)` with value `1` at `0`, the kernel shape
underlying a windowed-sinc design. -/
noncomputable def sincPi (x : ℝ) : ℝ :=
  if x = 0 then 1 else Real.sin (Real.pi * x) / (Real.pi * x)

/-- Modelled from the spec: the float bandpass prototype produced by the
external `scipy.signal.firwin` call of `filter_design.py` lines 27–32, which
is not part of the repository sources.  Spec §4.1: the designer "synthesizes
a windowed-sinc bandpass kernel of length `numtaps` (Hamming window ...)".
`low`/`high` are the passband edges normalized by Nyquist
(`filter_design.py` lines 20–22); index `i` ranges over `0..numtaps-1`, the
symmetry centre is `m = (numtaps-1)/2`, the Hamming window is
`0.54 - 0.46 cos(2πi/(numtaps-1))`, and the ideal bandpass kernel is the
difference of the two frequency-scaled sincs. -/
noncomputable def firwinModel (numtaps : ℕ) (low high : ℝ) (i : ℕ) : ℝ :=
  (0.54 - 0.46 * Real.cos (2 * Real.pi * i / ((numtaps : ℝ) - 1))) *
    (high * sincPi (high * ((i : ℝ) - ((numtaps : ℝ) - 1) / 2)) -
     low * sincPi (low * ((i : ℝ) - ((numtaps : ℝ) - 1) / 2)))

/-- The quantization step applied to the real-valued prototype, identical in
form to `quantizeQ` (`filter_design.py` lines 37–41). -/
noncomputable def quantizeR (fracBits : ℕ) (x : ℝ) : ℤ :=
  clipInt (-32768) 32767 (roundHalfEven (x * 2 ^ fracBits))

/-- The design-then-quantize pipeline of `design_bandpass_fir_filter`
(`filter_design.py` lines 27–41): the windowed-sinc prototype of length
`numtaps`, quantized elementwise. -/
noncomputable def designCoeffs (numtaps : ℕ) (low high : ℝ) (fracBits : ℕ) :
    List ℤ :=
  List.ofFn fun i : Fin numtaps => quantizeR fracBits (firwinModel numtaps low high i)

/-- The error taxonomy entry for a malformed filter spec (spec §7). -/
inductive FilterDesignError
  | invalidSpec
deriving DecidableEq

/-- Modelled from the spec: `design(spec)` with its validation.  Spec §4.1:
"Fails with `InvalidSpecError` if `numtaps < 1`, if either edge is outside
`(0, Nyquist)`, or if `low >= high`."  The validation happens inside the
external `firwin` call, not in the repository sources; the edge normalization
by `nyquist = 0.5 * fs` is `filter_design.py` lines 20–22. -/
noncomputable def design_bandpass_fir_filter (fs low high : ℚ)
    (numtaps fracBits : ℕ) : Except FilterDesignError (List ℤ) :=
  if numtaps < 1 ∨ low ≤ 0 ∨ fs / 2 ≤ low ∨ high ≤ 0 ∨ fs / 2 ≤ high ∨
      high ≤ low then
    .error .invalidSpec
  else
    .ok (designCoeffs numtaps ((low / (fs / 2) : ℚ) : ℝ)
          ((high / (fs / 2) : ℚ) : ℝ) fracBits)

theorem sincPi_neg (x : ℝ) : sincPi (-x) = sincPi x := by
  unfold sincPi
  rcases eq_or_ne x 0 with h | h
  · rw [h, neg_zero]
  · rw [if_neg (neg_ne_zero.mpr h), if_neg h, mul_neg, Real.sin_neg,
        neg_div_neg_eq]

theorem firwinModel_symm (numtaps : ℕ) (low high : ℝ) (i : ℕ)
    (h : i < numtaps) :
    firwinModel numtaps low high (numtaps - 1 - i) =
      firwinModel numtaps low high i := by
  have h1 : 1 ≤ numtaps := by omega
  have h2 : i ≤ numtaps - 1 := by omega
  have hcast : ((numtaps - 1 - i : ℕ) : ℝ) = ((numtaps : ℝ) - 1) - i := by
    have h3 : i ≤ numtaps - 1 := h2
    rw [Nat.cast_sub h3, Nat.cast_sub h1]
    norm_num
  unfold firwinModel
  rw [hcast]
  set M : ℝ := (numtaps : ℝ) - 1 with hM
  have hcos : Real.cos (2 * Real.pi * (M - (i : ℝ)) / M) =
      Real.cos (2 * Real.pi * (i : ℝ) / M) := by
    rcases eq_or_ne M 0 with hM0 | hM0
    · rw [hM0, div_zero, div_zero]
    · have harg : 2 * Real.pi * (M - (i : ℝ)) / M =
          -(2 * Real.pi * (i : ℝ) / M) + 2 * Real.pi := by
        field_simp
        ring
      rw [harg, Real.cos_add_two_pi, Real.cos_neg]
  have harg2 : (M - (i : ℝ)) - M / 2 = -((i : ℝ) - M / 2) := by ring
  rw [hcos, harg2, mul_neg, mul_neg, sincPi_neg, sincPi_neg]

/-- **C5.** For every bandpass design, the quantized coefficient array of
length `N` produced by the design-then-quantize pipeline is symmetric:
`coeffs[i] = coeffs[N-1-i]` for every index `i < N`. -/
theorem design_coeffs_symmetric (numtaps fracBits : ℕ) (low high : ℝ)
    (i : ℕ) (h : i < numtaps) :
    (designCoeffs numtaps low high fracBits).getD i 0 =
      (designCoeffs numtaps low high fracBits).getD (numtaps - 1 - i) 0 := by
  have hj : numtaps - 1 - i < numtaps := by omega
  have hgi : (designCoeffs numtaps low high fracBits).getD i 0 =
      quantizeR fracBits (firwinModel numtaps low high i) := by
    rw [designCoeffs, List.getD_eq_getElem _ _ (by simpa using h),
        List.getElem_ofFn]
  have hgj : (designCoeffs numtaps low high fracBits).getD (numtaps - 1 - i) 0 =
      quantizeR fracBits (firwinModel numtaps low high (numtaps - 1 - i)) := by
    rw [designCoeffs, List.getD_eq_getElem _ _ (by simpa using hj),
        List.getElem_ofFn]
  rw [hgi, hgj, firwinModel_symm numtaps low high i h]

theorem design_coeffs_symmetric_witness :
    (designCoeffs 5 (1/200 : ℝ) (1/20 : ℝ) 15).getD 1 0 =
      (designCoeffs 5 (1/200 : ℝ) (1/20 : ℝ) 15).getD 3 0 :=
  design_coeffs_symmetric 5 15 (1/200) (1/20) 1 (by norm_num)

/-- **C6.** `design(spec)` fails with `InvalidSpecError` whenever
`numtaps < 1`, or either passband edge lies outside the open interval
`(0, Nyquist)`, or `low >= high`: for every spec violating one of these
conditions the design operation returns that error, never coefficients. -/
theorem design_invalid_spec_error (fs low high : ℚ) (numtaps fracBits : ℕ)
    (h : numtaps < 1 ∨ low ≤ 0 ∨ fs / 2 ≤ low ∨ high ≤ 0 ∨ fs / 2 ≤ high ∨
      high ≤ low) :
    design_bandpass_fir_filter fs low high numtaps fracBits =
      .error .invalidSpec := by
  rw [design_bandpass_fir_filter, if_pos h]

theorem design_invalid_spec_error_witness :
    design_bandpass_fir_filter 2000 5 50 0 15 = .error .invalidSpec :=
  design_invalid_spec_error 2000 5 50 0 15 (Or.inl (by norm_num))
